import Mathlib

/-!
Verification of the transaction-construction and settlement engine described by
the xch-dev documentation corpus: ledger primitives (coins, conditions, coin
spends), the delta-resolution engine, the spend orchestrator with change
handling, the fungible-asset conservation ring, the offer/settlement protocol,
and the announcement-based validation graph.

Pure data is embedded directly from the documented source examples.  The hash
function (sha256 over the canonical fixed-width serialization) is modelled as
an injective pairing on natural numbers, reflecting the documented property
that no two distinct inputs share an id ("Unique IDs - No two coins can have
the same combination of parent coin id, puzzle hash, and amount").
-/

namespace Spec2Proof

/-- A 32-byte value (coin id, puzzle hash, announcement id, public key) is
modelled as a natural number. -/
abbrev Bytes32 := Nat

/-- Modelled from the spec: the hash of the canonical fixed-width serialization
of three fields (`Hash(parent_coin_id || puzzle_hash || amount)`), with the
hash treated as collision-free, so it is an injective pairing. -/
def hashTriple (a b c : Nat) : Nat :=
  Nat.pair a (Nat.pair b c)

theorem hashTriple_inj {a b c a₂ b₂ c₂ : Nat}
    (h : hashTriple a b c = hashTriple a₂ b₂ c₂) : a = a₂ ∧ b = b₂ ∧ c = c₂ := by
  simp only [hashTriple, Nat.pair_eq_pair] at h
  exact ⟨h.1, h.2.1, h.2.2⟩

/-- Modelled from the spec: the hash of an id concatenated with a message, as
used for announcement ids (`sha256(coin_id + message)` and
`sha256(puzzle_hash + message)`), with the hash treated as collision-free. -/
def hashPair (a b : Nat) : Nat :=
  Nat.pair a b

theorem hashPair_inj {a b a₂ b₂ : Nat} (h : hashPair a b = hashPair a₂ b₂) :
    a = a₂ ∧ b = b₂ := by
  simpa [hashPair, Nat.pair_eq_pair] using h

/-- A coin: parent coin id, puzzle hash, and amount in mojos. -/
structure Coin where
  parentCoinId : Bytes32
  puzzleHash : Bytes32
  amount : Nat
deriving DecidableEq, Repr

/-- Construct a coin from its three fields, as in `Coin::new(parent_coin.coin_id(),
puzzle_hash, amount)`. -/
def Coin.new (parentCoinId puzzleHash : Bytes32) (amount : Nat) : Coin :=
  ⟨parentCoinId, puzzleHash, amount⟩

/-- The coin id: the hash of the serialization of the parent coin id, the
puzzle hash, and the amount. -/
def Coin.coinId (c : Coin) : Bytes32 :=
  hashTriple c.parentCoinId c.puzzleHash c.amount

/-- A condition output by evaluating a coin's puzzle with its solution.  The
condition evaluator is an external oracle, so a spend is embedded together
with its evaluated condition list. -/
inductive Condition where
  | createCoin (puzzleHash : Bytes32) (amount : Nat) (memos : List Nat)
  | reserveFee (amount : Nat)
  | aggSigMe (publicKey : Bytes32) (message : Nat)
  | assertConcurrentSpend (coinId : Bytes32)
  | createCoinAnnouncement (message : Nat)
  | assertCoinAnnouncement (announcementId : Bytes32)
  | createPuzzleAnnouncement (message : Nat)
  | assertPuzzleAnnouncement (announcementId : Bytes32)
deriving DecidableEq, Repr

/-- A coin spend: the coin being spent together with the condition list its
puzzle evaluates to (the puzzle reveal and solution are consumed only through
the condition-evaluator oracle). -/
structure CoinSpend where
  coin : Coin
  conditions : List Condition
deriving DecidableEq, Repr

/-- The coin announcement id created when the spend of coin `cid` announces
message `msg`: `sha256(coin_id + message)`. -/
def coinAnnId (cid : Bytes32) (msg : Nat) : Bytes32 :=
  hashPair cid msg

/-- The puzzle announcement id created when a spend of a coin with puzzle hash
`ph` announces message `msg`: `sha256(puzzle_hash + message)`. -/
def puzzleAnnId (ph : Bytes32) (msg : Nat) : Bytes32 :=
  hashPair ph msg

/-- All coin announcement ids created across a transaction. -/
def createdCoinAnnIds (tx : List CoinSpend) : List Bytes32 :=
  tx.flatMap fun s =>
    s.conditions.filterMap fun c =>
      match c with
      | Condition.createCoinAnnouncement m => some (coinAnnId s.coin.coinId m)
      | _ => none

/-- All puzzle announcement ids created across a transaction. -/
def createdPuzzleAnnIds (tx : List CoinSpend) : List Bytes32 :=
  tx.flatMap fun s =>
    s.conditions.filterMap fun c =>
      match c with
      | Condition.createPuzzleAnnouncement m => some (puzzleAnnId s.coin.puzzleHash m)
      | _ => none

/-- The ids of all coins spent in a transaction. -/
def spentCoinIds (tx : List CoinSpend) : List Bytes32 :=
  tx.map fun s => s.coin.coinId

/-- Whether a single condition is satisfied within a transaction: assertions
must be matched by a corresponding creation (or spend) somewhere in the same
transaction; declarative output conditions are always satisfied at this
layer. -/
def conditionOk (tx : List CoinSpend) (c : Condition) : Bool :=
  match c with
  | Condition.assertCoinAnnouncement i => decide (i ∈ createdCoinAnnIds tx)
  | Condition.assertPuzzleAnnouncement i => decide (i ∈ createdPuzzleAnnIds tx)
  | Condition.assertConcurrentSpend cid => decide (cid ∈ spentCoinIds tx)
  | _ => true

/-- Whether every condition of every spend in a transaction is satisfied
within that same transaction. -/
def txConditionsOk (tx : List CoinSpend) : Bool :=
  tx.all fun s => s.conditions.all (conditionOk tx)

/-- Whether coin `c` is created inside the transaction: some spend's coin is
its parent and that spend emits a matching `CreateCoin`. -/
def coinCreatedBy (tx : List CoinSpend) (c : Coin) : Bool :=
  tx.any fun s =>
    decide (s.coin.coinId = c.parentCoinId) &&
      s.conditions.any fun cond =>
        match cond with
        | Condition.createCoin ph amt _ => decide (ph = c.puzzleHash ∧ amt = c.amount)
        | _ => false

/-- Whether every coin spent by the transaction exists: either it pre-exists
on the ledger or it is created ephemerally within the transaction. -/
def coinsExist (pre : List Coin) (tx : List CoinSpend) : Bool :=
  tx.all fun s => decide (s.coin ∈ pre) || coinCreatedBy tx s.coin

/-- Ledger validation of a transaction as a unit: all asserted conditions are
satisfied and every spent coin exists. -/
def txValid (pre : List Coin) (tx : List CoinSpend) : Bool :=
  txConditionsOk tx && coinsExist pre tx

/-- The coin created by a `CreateCoin` condition of a parent coin's spend. -/
def childCoin (parent : Coin) : Condition → Option Coin
  | Condition.createCoin ph amt _ => some (Coin.new parent.coinId ph amt)
  | _ => none

/-- C5: `coin_id` is a pure function of the coin's three fields (the hash of
parent coin id, puzzle hash, and amount); two coins are equal exactly when
their coin ids are equal; and the child coin created by
`CreateCoin(puzzle_hash, amount)` from parent `p` is exactly
`Coin::new(p.coin_id(), puzzle_hash, amount)`. -/
theorem coin_identity_deterministic :
    (∀ c₁ c₂ : Coin, c₁ = c₂ ↔ c₁.coinId = c₂.coinId) ∧
    (∀ (p : Coin) (ph : Bytes32) (amt : Nat) (memos : List Nat),
      childCoin p (Condition.createCoin ph amt memos) =
        some (Coin.new p.coinId ph amt)) := by
  constructor
  · intro c₁ c₂
    constructor
    · intro h
      rw [h]
    · intro h
      obtain ⟨h₁, h₂, h₃⟩ := hashTriple_inj h
      cases c₁
      cases c₂
      simp_all
  · intro p ph amt memos
    rfl

/-- C9: an `AssertCoinAnnouncement` with id `sha256(coin_id || message)`
succeeds within a transaction if and only if some spend of the coin with that
coin id creates a coin announcement with exactly that message; likewise an
`AssertPuzzleAnnouncement` with id `sha256(puzzle_hash || message)` succeeds
if and only if some spend of a coin with that puzzle hash creates the matching
puzzle announcement. -/
theorem announcement_assertion_semantics :
    ∀ (tx : List CoinSpend) (cid ph : Bytes32) (msg pmsg : Nat),
      (conditionOk tx (Condition.assertCoinAnnouncement (coinAnnId cid msg)) = true ↔
        ∃ s ∈ tx, s.coin.coinId = cid ∧
          Condition.createCoinAnnouncement msg ∈ s.conditions) ∧
      (conditionOk tx (Condition.assertPuzzleAnnouncement (puzzleAnnId ph pmsg)) = true ↔
        ∃ s ∈ tx, s.coin.puzzleHash = ph ∧
          Condition.createPuzzleAnnouncement pmsg ∈ s.conditions) := by
  intro tx cid ph msg pmsg
  constructor
  · simp only [conditionOk, decide_eq_true_eq, createdCoinAnnIds, List.mem_flatMap,
      List.mem_filterMap]
    constructor
    · rintro ⟨s, hs, c, hc, hmatch⟩
      cases c <;> simp only [Option.some.injEq] at hmatch <;> try exact absurd hmatch (by simp)
      case createCoinAnnouncement m =>
        obtain ⟨h₁, h₂⟩ := hashPair_inj hmatch
        exact ⟨s, hs, h₁, h₂ ▸ hc⟩
    · rintro ⟨s, hs, hcid, hmem⟩
      exact ⟨s, hs, Condition.createCoinAnnouncement msg, hmem, by rw [hcid]⟩
  · simp only [conditionOk, decide_eq_true_eq, createdPuzzleAnnIds, List.mem_flatMap,
      List.mem_filterMap]
    constructor
    · rintro ⟨s, hs, c, hc, hmatch⟩
      cases c <;> simp only [Option.some.injEq] at hmatch <;> try exact absurd hmatch (by simp)
      case createPuzzleAnnouncement m =>
        obtain ⟨h₁, h₂⟩ := hashPair_inj hmatch
        exact ⟨s, hs, h₁, h₂ ▸ hc⟩
    · rintro ⟨s, hs, hph, hmem⟩
      exact ⟨s, hs, Condition.createPuzzleAnnouncement pmsg, hmem, by rw [hph]⟩

/-- The pairwise concurrent-spend assertions for the batch member at index
`i`: one `AssertConcurrentSpend` for every other coin id in the batch,
mirroring the linking loop of the batching example (`for j, if i != j then
assert_concurrent_spend(coin_ids[j])`). -/
def othersAsserts (ids : List Bytes32) (i : Nat) : List Condition :=
  ids.enum.filterMap fun q =>
    if q.1 = i then none else some (Condition.assertConcurrentSpend q.2)

/-- The finished multi-coin batch under `Relation::AssertConcurrent`: each
input coin sends its amount to `dest` and asserts the concurrent spend of
every other coin in the batch. -/
def batchSpends (coins : List Coin) (dest : Bytes32) : List CoinSpend :=
  coins.enum.map fun p =>
    ⟨p.2, Condition.createCoin dest p.2.amount [] ::
      othersAsserts (coins.map Coin.coinId) p.1⟩

theorem mem_batchSpends {coins : List Coin} {dest : Bytes32} {u : CoinSpend} :
    u ∈ batchSpends coins dest ↔
      ∃ i : Nat, ∃ h : i < coins.length,
        u = ⟨coins[i], Condition.createCoin dest coins[i].amount [] ::
          othersAsserts (coins.map Coin.coinId) i⟩ := by
  simp only [batchSpends, List.mem_map]
  constructor
  · rintro ⟨⟨i, c⟩, hmem, rfl⟩
    rw [List.mk_mem_enum_iff_getElem?] at hmem
    obtain ⟨hi, hc⟩ := List.getElem?_eq_some.mp hmem
    exact ⟨i, hi, by rw [hc]⟩
  · rintro ⟨i, hi, rfl⟩
    refine ⟨(i, coins[i]), ?_, rfl⟩
    rw [List.mk_mem_enum_iff_getElem?]
    exact List.getElem?_eq_getElem hi

theorem assertConcurrent_mem_othersAsserts {ids : List Bytes32} {i j : Nat}
    (hj : j < ids.length) (hne : j ≠ i) :
    Condition.assertConcurrentSpend ids[j] ∈ othersAsserts ids i := by
  simp only [othersAsserts, List.mem_filterMap]
  refine ⟨(j, ids[j]), ?_, ?_⟩
  · rw [List.mk_mem_enum_iff_getElem?]
    exact List.getElem?_eq_getElem hj
  · simp [hne]

/-- C3: under `Relation::AssertConcurrent` every input coin of the finished
batch carries `AssertConcurrentSpend` conditions naming every other input
coin, so no proper subset of the batch validates: any sub-batch that omits
some member `s` while retaining some member `t` fails validation (in
particular, removing any single CoinSpend from a multi-coin batch invalidates
the remainder). -/
theorem assert_concurrent_relation_safety
    (coins : List Coin) (dest : Bytes32) (pre : List Coin)
    (tx : List CoinSpend) (s t : CoinSpend)
    (hnodup : (coins.map Coin.coinId).Nodup)
    (hsub : tx ⊆ batchSpends coins dest)
    (hsb : s ∈ batchSpends coins dest) (hstx : s ∉ tx) (httx : t ∈ tx) :
    txValid pre tx = false := by
  obtain ⟨j, hj, hs⟩ := mem_batchSpends.mp hsb
  obtain ⟨i, hi, ht⟩ := mem_batchSpends.mp (hsub httx)
  have htns : t ≠ s := fun h => hstx (h ▸ httx)
  have hij : j ≠ i := by
    rintro rfl
    exact htns (ht.trans hs.symm)
  have hjids : j < (coins.map Coin.coinId).length := by
    simpa using hj
  have hidsj : (coins.map Coin.coinId)[j] = coins[j].coinId := by
    simp
  have hassert : Condition.assertConcurrentSpend s.coin.coinId ∈ t.conditions := by
    have hmem := assertConcurrent_mem_othersAsserts hjids hij
    rw [hidsj] at hmem
    have hscoin : s.coin = coins[j] := by rw [hs]
    rw [hscoin, ht]
    exact List.mem_cons_of_mem _ hmem
  have hnotspent : s.coin.coinId ∉ spentCoinIds tx := by
    intro hmem
    simp only [spentCoinIds, List.mem_map] at hmem
    obtain ⟨u, hutx, hu⟩ := hmem
    obtain ⟨k, hk, hueq⟩ := mem_batchSpends.mp (hsub hutx)
    have hucoin : u.coin = coins[k] := by rw [hueq]
    have hscoin : s.coin = coins[j] := by rw [hs]
    have hkj : k = j := by
      have hkids : k < (coins.map Coin.coinId).length := by simpa using hk
      have : (coins.map Coin.coinId)[k] = (coins.map Coin.coinId)[j] := by
        simp only [List.getElem_map]
        rw [← hucoin, ← hscoin, hu]
      exact (List.Nodup.getElem_inj_iff hnodup).mp this
    have : u = s := by
      subst hkj
      rw [hueq, hs]
    exact hstx (this ▸ hutx)
  have hcond : txConditionsOk tx = false := by
    cases hall : txConditionsOk tx
    · rfl
    · exfalso
      simp only [txConditionsOk, List.all_eq_true] at hall
      have h2 := hall t httx _ hassert
      simp only [conditionOk, decide_eq_true_eq] at h2
      exact hnotspent h2
  simp [txValid, hcond]

/-- Concrete two-coin batch used to witness the relation-safety theorem. -/
def batchW : List CoinSpend :=
  batchSpends [Coin.new 0 0 1, Coin.new 1 1 2] 5

/-- The first spend of the concrete batch. -/
def spendW0 : CoinSpend := batchW.get ⟨0, by decide⟩

/-- The second spend of the concrete batch. -/
def spendW1 : CoinSpend := batchW.get ⟨1, by decide⟩

theorem assert_concurrent_relation_safety_witness :
    (([Coin.new 0 0 1, Coin.new 1 1 2].map Coin.coinId).Nodup ∧
      [spendW1] ⊆ batchW ∧ spendW0 ∈ batchW ∧ spendW0 ∉ [spendW1] ∧
      spendW1 ∈ [spendW1]) ∧
    txValid [] [spendW1] = false := by
  refine ⟨⟨by decide, by decide, by decide, by decide, by decide⟩, ?_⟩
  exact assert_concurrent_relation_safety [Coin.new 0 0 1, Coin.new 1 1 2] 5 []
    [spendW1] spendW0 spendW1 (by decide) (by decide) (by decide) (by decide)
    (by decide)

/-- Unsigned 64-bit subtraction as written unguarded in the source
(`source_coin.amount - amount - fee`): defined exactly when no underflow
occurs. -/
def u64Sub (a b : Nat) : Option Nat :=
  if b ≤ a then some (a - b) else none

/-- Saturating subtraction (`u64::saturating_sub`), total for all inputs. -/
def saturatingSub (a b : Nat) : Nat :=
  a - b

/-- The condition list built by the `send_xch` example: create the recipient
coin, reserve the fee, and add a change output back to the sender if the
unguarded difference `source_coin.amount - amount - fee` is positive.  The
result is `none` when either subtraction underflows. -/
def sendXchConditions (sourceCoin : Coin) (sourcePuzzleHash recipientPuzzleHash : Bytes32)
    (amount fee : Nat) : Option (List Condition) :=
  match u64Sub sourceCoin.amount amount with
  | none => none
  | some d =>
    match u64Sub d fee with
    | none => none
    | some change =>
      some (Condition.createCoin recipientPuzzleHash amount [recipientPuzzleHash] ::
        Condition.reserveFee fee ::
        (if 0 < change then
          [Condition.createCoin sourcePuzzleHash change [sourcePuzzleHash]]
        else []))

/-- The condition list built by the `build_with_change` helper, which computes
change with `coin.amount.saturating_sub(send_amount).saturating_sub(fee)` and
is therefore total. -/
def buildWithChangeConditions (coin : Coin) (senderPuzzleHash recipient : Bytes32)
    (sendAmount fee : Nat) : List Condition :=
  let change := saturatingSub (saturatingSub coin.amount sendAmount) fee
  Condition.createCoin recipient sendAmount [recipient] ::
    Condition.reserveFee fee ::
    (if 0 < change then
      [Condition.createCoin senderPuzzleHash change [senderPuzzleHash]]
    else [])

/-- The total value declared by a condition list: created coin amounts plus
reserved fees. -/
def conditionOutputTotal (conds : List Condition) : Nat :=
  (conds.map fun c =>
    match c with
    | Condition.createCoin _ amt _ => amt
    | Condition.reserveFee amt => amt
    | _ => 0).sum

/-- C10: under the precondition `amount + fee ≤ source_coin.amount` the
unguarded subtraction in `send_xch` never underflows and the produced outputs
(recipient coin, fee, optional change) sum exactly to the input amount,
coinciding with the saturating `build_with_change` helper; outside the
precondition `send_xch`'s subtraction underflows while `build_with_change`
still totally produces the change-free condition list. -/
theorem send_xch_change_arithmetic (sourceCoin : Coin)
    (sourcePuzzleHash recipientPuzzleHash : Bytes32) (amount fee : Nat)
    (h : amount + fee ≤ sourceCoin.amount) :
    (∃ conds,
      sendXchConditions sourceCoin sourcePuzzleHash recipientPuzzleHash amount fee =
        some conds ∧
      conditionOutputTotal conds = sourceCoin.amount ∧
      conds = buildWithChangeConditions sourceCoin sourcePuzzleHash recipientPuzzleHash
        amount fee) ∧
    (∀ (c : Coin) (sph rph : Bytes32) (a f : Nat), c.amount < a + f →
      sendXchConditions c sph rph a f = none ∧
      buildWithChangeConditions c sph rph a f =
        [Condition.createCoin rph a [rph], Condition.reserveFee f]) := by
  constructor
  · have h₁ : amount ≤ sourceCoin.amount := by omega
    have h₂ : fee ≤ sourceCoin.amount - amount := by omega
    refine ⟨buildWithChangeConditions sourceCoin sourcePuzzleHash recipientPuzzleHash
      amount fee, ?_, ?_, rfl⟩
    · simp only [sendXchConditions, u64Sub, if_pos h₁, if_pos h₂,
        buildWithChangeConditions, saturatingSub]
    · simp only [buildWithChangeConditions, saturatingSub]
      by_cases hch : 0 < sourceCoin.amount - amount - fee
      · simp only [if_pos hch, conditionOutputTotal, List.map_cons, List.map_nil,
          List.sum_cons, List.sum_nil]
        omega
      · simp only [if_neg hch, conditionOutputTotal, List.map_cons, List.map_nil,
          List.sum_cons, List.sum_nil]
        omega
  · intro c sph rph a f hlt
    constructor
    · by_cases ha : a ≤ c.amount
      · have hf : ¬(f ≤ c.amount - a) := by omega
        simp only [sendXchConditions, u64Sub, if_pos ha, if_neg hf]
      · simp only [sendXchConditions, u64Sub, if_neg ha]
    · have hzero : ¬(0 < c.amount - a - f) := by omega
      simp only [buildWithChangeConditions, saturatingSub, if_neg hzero]

theorem send_xch_change_arithmetic_witness :
    900 + 100 ≤ (Coin.new 0 7 1000).amount ∧
    ∃ conds,
      sendXchConditions (Coin.new 0 7 1000) 7 3 900 100 = some conds ∧
      conditionOutputTotal conds = (Coin.new 0 7 1000).amount ∧
      conds = buildWithChangeConditions (Coin.new 0 7 1000) 7 3 900 100 :=
  ⟨by decide, (send_xch_change_arithmetic (Coin.new 0 7 1000) 7 3 900 100 (by decide)).1⟩

/-- Asset identification in the action system: native XCH, an existing asset
by id, or an asset newly created by the action at the given index. -/
inductive Id where
  | xch
  | existing (assetId : Bytes32)
  | new (index : Nat)
deriving DecidableEq, Repr

/-- Errors surfaced by the action system before any spend is emitted. -/
inductive SpendError where
  | unresolvedAssetReference (index : Nat)
  | insufficientFunds (asset : Id) (shortfall : Nat)
  | missingSignerKey (puzzleHash : Bytes32)
deriving DecidableEq, Repr

/-- A declarative action, as in the action system reference table. -/
inductive Action where
  | send (asset : Id) (destination : Bytes32) (amount : Nat) (memos : List Nat)
  | burn (asset : Id) (amount : Nat)
  | fee (amount : Nat)
  | singleIssueCat (hiddenPuzzleHash : Option Bytes32) (amount : Nat)
  | issueCat (hiddenPuzzleHash : Option Bytes32) (amount : Nat)
  | mintNft (amount : Nat)
  | updateNft (asset : Id)
  | createDid
  | updateDid (asset : Id)
  | settle (asset : Id)
  | meltSingleton (asset : Id)
deriving DecidableEq, Repr

/-- Whether an action creates a new asset (the `Creates Asset` column of the
action reference table: CAT issuance, NFT minting, DID creation). -/
def Action.createsAsset : Action → Bool
  | Action.singleIssueCat _ _ => true
  | Action.issueCat _ _ => true
  | Action.mintNft _ => true
  | Action.createDid => true
  | _ => false

/-- The asset an action operates on, when it references one. -/
def Action.referencedAsset : Action → Option Id
  | Action.send a _ _ _ => some a
  | Action.burn a _ => some a
  | Action.updateNft a => some a
  | Action.updateDid a => some a
  | Action.settle a => some a
  | Action.meltSingleton a => some a
  | _ => none

/-- Modelled from the spec: the reference-resolution part of the delta ledger
walk (`Deltas::from_actions` and `Spends::apply` of the SDK, whose source is
outside this repository).  The walk visits each action once; a lookup table
of asset-creating action indices is built incrementally, and a reference
`Id::New(i)` resolves only if index `i` is already registered, so a `New(i)`
appearing before index `i`, or naming an index that does not create an asset,
is a hard `UnresolvedAssetReference` error. -/
def isNewRef (a : Action) : Option Nat :=
  match a.referencedAsset with
  | some (Id.new i) => some i
  | _ => none

/-- The incremental resolution walk itself (see `isNewRef` for the reference
shape it inspects). -/
def resolveWalk : Nat → List Nat → List Action → Except SpendError (List Nat)
  | _, registry, [] => Except.ok registry
  | j, registry, a :: rest =>
    match isNewRef a with
    | some i =>
      if i ∈ registry then
        resolveWalk (j + 1) (if a.createsAsset then registry ++ [j] else registry) rest
      else
        Except.error (SpendError.unresolvedAssetReference i)
    | none =>
      resolveWalk (j + 1) (if a.createsAsset then registry ++ [j] else registry) rest

/-- Resolution of an action list, starting from the empty registry. -/
def resolveActions (actions : List Action) : Except SpendError (List Nat) :=
  resolveWalk 0 [] actions

/-- The action at index `i` exists and creates an asset. -/
def createsAt (actions : List Action) (i : Nat) : Prop :=
  ∃ a, actions[i]? = some a ∧ a.createsAsset = true

theorem isNewRef_eq (a : Action) (i : Nat) :
    isNewRef a = some i ↔ a.referencedAsset = some (Id.new i) := by
  unfold isNewRef
  cases h : a.referencedAsset with
  | none => simp
  | some asset => cases asset <;> simp

theorem resolveWalk_cons_none {a : Action} {rest : List Action} {j : Nat}
    {registry : List Nat} (h : isNewRef a = none) :
    resolveWalk j registry (a :: rest) =
      resolveWalk (j + 1) (if a.createsAsset then registry ++ [j] else registry)
        rest := by
  simp only [resolveWalk, h]

theorem resolveWalk_cons_some {a : Action} {rest : List Action} {j : Nat}
    {registry : List Nat} {i : Nat} (h : isNewRef a = some i) :
    resolveWalk j registry (a :: rest) =
      if i ∈ registry then
        resolveWalk (j + 1) (if a.createsAsset then registry ++ [j] else registry)
          rest
      else Except.error (SpendError.unresolvedAssetReference i) := by
  simp only [resolveWalk, h]

theorem resolveWalk_shape (rest : List Action) :
    ∀ (j : Nat) (registry : List Nat),
      (∃ reg, resolveWalk j registry rest = Except.ok reg) ∨
      (∃ i, resolveWalk j registry rest =
        Except.error (SpendError.unresolvedAssetReference i)) := by
  induction rest with
  | nil => exact fun j registry => Or.inl ⟨registry, rfl⟩
  | cons a rest ih =>
    intro j registry
    cases hni : isNewRef a with
    | none =>
      rw [resolveWalk_cons_none hni]
      exact ih (j + 1) _
    | some i =>
      rw [resolveWalk_cons_some hni]
      by_cases hmem : i ∈ registry
      · rw [if_pos hmem]
        exact ih (j + 1) _
      · rw [if_neg hmem]
        exact Or.inr ⟨i, rfl⟩

theorem registry_step (all : List Action) {a : Action} {j : Nat}
    {registry : List Nat} (hj : all[j]? = some a)
    (hreg : ∀ i, i ∈ registry ↔ (i < j ∧ createsAt all i)) :
    ∀ i, i ∈ (if a.createsAsset then registry ++ [j] else registry) ↔
      (i < j + 1 ∧ createsAt all i) := by
  intro i
  by_cases hcr : a.createsAsset
  · simp only [if_pos hcr, List.mem_append, List.mem_singleton, hreg i]
    constructor
    · rintro (⟨hlt, hc⟩ | rfl)
      · exact ⟨by omega, hc⟩
      · exact ⟨by omega, a, hj, hcr⟩
    · rintro ⟨hlt, hc⟩
      by_cases hij : i = j
      · exact Or.inr hij
      · exact Or.inl ⟨by omega, hc⟩
  · simp only [if_neg hcr, hreg i]
    constructor
    · rintro ⟨hlt, hc⟩
      exact ⟨by omega, hc⟩
    · rintro ⟨hlt, hc⟩
      refine ⟨?_, hc⟩
      rcases Nat.lt_succ_iff_lt_or_eq.mp hlt with h | rfl
      · exact h
      · obtain ⟨b, hb, hbc⟩ := hc
        rw [hj] at hb
        cases hb
        exact absurd hbc (by simp [hcr])

theorem drop_cons_head {α : Type} {l : List α} {j : Nat} {a : α} {rest : List α}
    (hdrop : l.drop j = a :: rest) : l[j]? = some a ∧ l.drop (j + 1) = rest := by
  constructor
  · have h0 : (l.drop j)[0]? = some a := by rw [hdrop]; simp
    rwa [List.getElem?_drop, Nat.add_zero] at h0
  · have h1 : l.drop (j + 1) = (l.drop j).drop 1 := by
      rw [List.drop_drop, Nat.add_comm]
    rw [h1, hdrop]
    simp

theorem resolveWalk_sound (all : List Action) :
    ∀ (rest : List Action) (j : Nat) (registry reg : List Nat),
      all.drop j = rest →
      (∀ i, i ∈ registry ↔ (i < j ∧ createsAt all i)) →
      resolveWalk j registry rest = Except.ok reg →
      (∀ k i a, j ≤ k → all[k]? = some a →
        a.referencedAsset = some (Id.new i) → i < k ∧ createsAt all i) ∧
      (∀ i, i ∈ reg ↔ (i < j + rest.length ∧ createsAt all i)) := by
  intro rest
  induction rest with
  | nil =>
    intro j registry reg hdrop hreg hok
    have hlen : all.length ≤ j := by
      have := List.drop_eq_nil_iff.mp hdrop
      omega
    cases hok
    constructor
    · intro k i a hjk hk href
      rw [List.getElem?_eq_none (by omega)] at hk
      exact absurd hk (by simp)
    · intro i
      simpa using hreg i
  | cons a rest ih =>
    intro j registry reg hdrop hreg hok
    obtain ⟨hj, hdrop₂⟩ := drop_cons_head hdrop
    have hreg₂ := registry_step all hj hreg
    have hlen : j + (a :: rest).length = (j + 1) + rest.length := by
      simp only [List.length_cons]
      omega
    have hstep : resolveWalk (j + 1)
        (if a.createsAsset then registry ++ [j] else registry) rest =
          Except.ok reg ∧
        (∀ i, isNewRef a = some i → i ∈ registry) := by
      cases hni : isNewRef a with
      | none =>
        rw [resolveWalk_cons_none hni] at hok
        exact ⟨hok, fun i h => Option.noConfusion h⟩
      | some i₂ =>
        rw [resolveWalk_cons_some hni] at hok
        by_cases hmem : i₂ ∈ registry
        · rw [if_pos hmem] at hok
          refine ⟨hok, fun i h => ?_⟩
          exact Option.some.inj h ▸ hmem
        · rw [if_neg hmem] at hok
          exact absurd hok (by simp)
    obtain ⟨htail, hcur⟩ := hstep
    obtain ⟨hgood, hchar⟩ := ih (j + 1) _ reg hdrop₂ hreg₂ htail
    constructor
    · intro k i b hjk hk href
      by_cases hkj : k = j
      · subst hkj
        rw [hj] at hk
        cases hk
        have hmem := hcur i ((isNewRef_eq _ i).mpr href)
        exact (hreg i).mp hmem
      · exact hgood k i b (by omega) hk href
    · intro i
      rw [hchar i, hlen]

theorem resolveWalk_complete (all : List Action) :
    ∀ (rest : List Action) (j : Nat) (registry : List Nat),
      all.drop j = rest →
      (∀ i, i ∈ registry ↔ (i < j ∧ createsAt all i)) →
      (∀ k i a, j ≤ k → all[k]? = some a →
        a.referencedAsset = some (Id.new i) → i < k ∧ createsAt all i) →
      ∃ reg, resolveWalk j registry rest = Except.ok reg := by
  intro rest
  induction rest with
  | nil => exact fun j registry _ _ _ => ⟨registry, rfl⟩
  | cons a rest ih =>
    intro j registry hdrop hreg hgood
    obtain ⟨hj, hdrop₂⟩ := drop_cons_head hdrop
    have hreg₂ := registry_step all hj hreg
    obtain ⟨reg, hok⟩ := ih (j + 1) _ hdrop₂ hreg₂
      (fun k i b hk₂ hkb href => hgood k i b (by omega) hkb href)
    refine ⟨reg, ?_⟩
    cases hni : isNewRef a with
    | none =>
      rw [resolveWalk_cons_none hni]
      exact hok
    | some i₂ =>
      rw [resolveWalk_cons_some hni]
      have hmem : i₂ ∈ registry :=
        (hreg i₂).mpr (hgood j i₂ a (Nat.le_refl j) hj ((isNewRef_eq a i₂).mp hni))
      rw [if_pos hmem]
      exact hok

/-- C7: resolution fails with `UnresolvedAssetReference` whenever some action
references `Id::New(i)` before the action at index `i` appears, or when index
`i` does not itself create an asset; and when every `New` reference points at
an earlier asset-creating action, resolution succeeds with a registry that
contains exactly the asset-creating indices, so each `New(i)` resolves to
exactly the one asset created by the action at index `i`. -/
theorem new_reference_resolution (actions : List Action) :
    ((∃ j i a, actions[j]? = some a ∧ a.referencedAsset = some (Id.new i) ∧
        ¬(i < j ∧ createsAt actions i)) →
      ∃ i₂, resolveActions actions =
        Except.error (SpendError.unresolvedAssetReference i₂)) ∧
    ((∀ j i a, actions[j]? = some a → a.referencedAsset = some (Id.new i) →
        i < j ∧ createsAt actions i) →
      ∃ reg, resolveActions actions = Except.ok reg ∧
        ∀ i, i ∈ reg ↔ (i < actions.length ∧ createsAt actions i)) := by
  constructor
  · rintro ⟨j, i, a, hj, href, hbad⟩
    rcases resolveWalk_shape actions 0 [] with ⟨reg, hok⟩ | ⟨i₂, herr⟩
    · exact absurd ((resolveWalk_sound actions actions 0 [] reg (by simp)
        (by simp) hok).1 j i a (Nat.zero_le j) hj href) hbad
    · exact ⟨i₂, herr⟩
  · intro hgood
    obtain ⟨reg, hok⟩ := resolveWalk_complete actions actions 0 [] (by simp)
      (by simp) (fun k i a _ hk href => hgood k i a hk href)
    have hchar := (resolveWalk_sound actions actions 0 [] reg (by simp)
      (by simp) hok).2
    exact ⟨reg, hok, fun i => by simpa using hchar i⟩

theorem new_reference_resolution_witness :
    (∃ i₂, resolveActions [Action.send (Id.new 0) 2 5 []] =
      Except.error (SpendError.unresolvedAssetReference i₂)) ∧
    (∃ reg, resolveActions
        [Action.singleIssueCat none 1000, Action.send (Id.new 0) 2 1000 []] =
          Except.ok reg ∧
      ∀ i, i ∈ reg ↔ (i < 2 ∧
        createsAt [Action.singleIssueCat none 1000,
          Action.send (Id.new 0) 2 1000 []] i)) := by
  constructor
  · exact (new_reference_resolution _).1 ⟨0, 0, _, rfl, rfl, by omega⟩
  · refine (new_reference_resolution _).2 ?_
    intro j i a hj href
    rcases j with _ | _ | j
    · simp only [List.getElem?_cons_zero, Option.some.injEq] at hj
      subst hj
      exact absurd href (by simp [Action.referencedAsset])
    · simp only [List.getElem?_cons_succ, List.getElem?_cons_zero,
        Option.some.injEq] at hj
      subst hj
      simp only [Action.referencedAsset, Option.some.injEq, Id.new.injEq] at href
      subst href
      exact ⟨by omega, Action.singleIssueCat none 1000, rfl, rfl⟩
    · simp at hj

/-- The created outputs declared by a transaction: every `CreateCoin`'s
puzzle hash and amount, in order. -/
def createdOutputs (tx : List CoinSpend) : List (Bytes32 × Nat) :=
  tx.flatMap fun s =>
    s.conditions.filterMap fun c =>
      match c with
      | Condition.createCoin ph amt _ => some (ph, amt)
      | _ => none

/-- A per-asset group in a finished spend batch: the input coins added by the
caller and the required payment outputs for that asset. -/
structure AssetGroup where
  added : List Coin
  requiredOutputs : List (Bytes32 × Nat)
deriving DecidableEq, Repr

/-- The sum of the added input coin amounts. -/
def AssetGroup.inputTotal (g : AssetGroup) : Nat :=
  (g.added.map Coin.amount).sum

/-- The sum of the required output amounts. -/
def AssetGroup.requiredTotal (g : AssetGroup) : Nat :=
  (g.requiredOutputs.map Prod.snd).sum

/-- Modelled from the spec: per-asset finalization in `Spends::finish_with_keys`
(whose source is outside this repository): when the added coins exceed the
required output a single change output for the exact remainder is appended at
the configured change puzzle hash, a zero remainder is suppressed, and a
shortfall fails with `InsufficientFunds` carrying the exact shortfall before
any spend is emitted.  The first input coin carries the output conditions and
the remaining inputs are spent alongside it (the documented order-independence
lets one coin carry the combined value). -/
def finishAsset (asset : Id) (changePuzzleHash : Bytes32) (g : AssetGroup) :
    Except SpendError (List CoinSpend) :=
  if g.inputTotal < g.requiredTotal then
    Except.error (SpendError.insufficientFunds asset (g.requiredTotal - g.inputTotal))
  else
    let outs := g.requiredOutputs ++
      (if g.requiredTotal < g.inputTotal then
        [(changePuzzleHash, g.inputTotal - g.requiredTotal)]
      else [])
    match g.added with
    | [] => Except.ok []
    | c :: rest =>
      Except.ok (⟨c, outs.map fun p => Condition.createCoin p.1 p.2 [p.1]⟩ ::
        rest.map fun c₂ => ⟨c₂, []⟩)

theorem createdOutputs_emit (c : Coin) (rest : List Coin)
    (outs : List (Bytes32 × Nat)) :
    createdOutputs (⟨c, outs.map fun p => Condition.createCoin p.1 p.2 [p.1]⟩ ::
      rest.map fun c₂ => ⟨c₂, []⟩) = outs := by
  simp only [createdOutputs, List.flatMap_cons, List.filterMap_map]
  have h₁ : (List.filterMap
      ((fun c => match c with
        | Condition.createCoin ph amt _ => some (ph, amt)
        | _ => none) ∘ fun p : Bytes32 × Nat => Condition.createCoin p.1 p.2 [p.1])
      outs) = outs := by
    induction outs with
    | nil => rfl
    | cons p ps ih => simp only [List.filterMap_cons, Function.comp_apply, ih]
  rw [h₁]
  have h₂ : ((rest.map fun c₂ => CoinSpend.mk c₂ []).flatMap fun s =>
      s.conditions.filterMap fun c =>
        match c with
        | Condition.createCoin ph amt _ => some (ph, amt)
        | _ => none) = [] := by
    induction rest with
    | nil => rfl
    | cons r rs _ => simp
  rw [h₂, List.append_nil]

/-- C2: for every asset group with input coins summing to `S` and required
output `R`: if `R < S` exactly one change output of amount `S - R` is created
at the configured change puzzle hash (and the created outputs conserve `S`);
if `S = R` no change output is created; and if `S < R` finalization fails
with `InsufficientFunds` reporting the exact shortfall, with no spend
emitted. -/
theorem change_output_correctness (asset : Id) (changePh : Bytes32)
    (g : AssetGroup) (hne : g.added ≠ []) :
    (g.requiredTotal < g.inputTotal →
      ∃ spends, finishAsset asset changePh g = Except.ok spends ∧
        createdOutputs spends =
          g.requiredOutputs ++ [(changePh, g.inputTotal - g.requiredTotal)] ∧
        ((createdOutputs spends).map Prod.snd).sum = g.inputTotal) ∧
    (g.inputTotal = g.requiredTotal →
      ∃ spends, finishAsset asset changePh g = Except.ok spends ∧
        createdOutputs spends = g.requiredOutputs) ∧
    (g.inputTotal < g.requiredTotal →
      finishAsset asset changePh g =
        Except.error (SpendError.insufficientFunds asset
          (g.requiredTotal - g.inputTotal))) := by
  refine ⟨?_, ?_, ?_⟩
  · intro hlt
    obtain ⟨c, rest, hadded⟩ : ∃ c rest, g.added = c :: rest := by
      cases hc : g.added with
      | nil => exact absurd hc hne
      | cons c rest => exact ⟨c, rest, rfl⟩
    have hnot : ¬(g.inputTotal < g.requiredTotal) := by omega
    have hfin : finishAsset asset changePh g = Except.ok
        (⟨c, (g.requiredOutputs ++
            [(changePh, g.inputTotal - g.requiredTotal)]).map
              fun p => Condition.createCoin p.1 p.2 [p.1]⟩ ::
          rest.map fun c₂ => ⟨c₂, []⟩) := by
      simp only [finishAsset, if_neg hnot, if_pos hlt, hadded]
    refine ⟨_, hfin, createdOutputs_emit c rest _, ?_⟩
    rw [createdOutputs_emit c rest _]
    simp only [List.map_append, List.sum_append, List.map_cons, List.map_nil,
      List.sum_cons, List.sum_nil]
    have : g.requiredTotal = (g.requiredOutputs.map Prod.snd).sum := rfl
    omega
  · intro heq
    obtain ⟨c, rest, hadded⟩ : ∃ c rest, g.added = c :: rest := by
      cases hc : g.added with
      | nil => exact absurd hc hne
      | cons c rest => exact ⟨c, rest, rfl⟩
    have hnot : ¬(g.inputTotal < g.requiredTotal) := by omega
    have hnot₂ : ¬(g.requiredTotal < g.inputTotal) := by omega
    have hfin : finishAsset asset changePh g = Except.ok
        (⟨c, (g.requiredOutputs ++ ([] : List (Bytes32 × Nat))).map
            fun p => Condition.createCoin p.1 p.2 [p.1]⟩ ::
          rest.map fun c₂ => ⟨c₂, []⟩) := by
      simp only [finishAsset, if_neg hnot, if_neg hnot₂, hadded]
    refine ⟨_, hfin, ?_⟩
    rw [createdOutputs_emit c rest (g.requiredOutputs ++ [])]
    simp
  · intro hlt
    simp only [finishAsset, if_pos hlt]

theorem change_output_correctness_witness :
    ((AssetGroup.mk [Coin.new 0 1 100] [(2, 60)]).added ≠ [] ∧
      (AssetGroup.mk [Coin.new 0 1 100] [(2, 60)]).requiredTotal <
        (AssetGroup.mk [Coin.new 0 1 100] [(2, 60)]).inputTotal) ∧
    ∃ spends, finishAsset Id.xch 9 (AssetGroup.mk [Coin.new 0 1 100] [(2, 60)]) =
        Except.ok spends ∧
      createdOutputs spends = [(2, 60)] ++ [(9, 40)] ∧
      ((createdOutputs spends).map Prod.snd).sum = 100 :=
  ⟨⟨by decide, by decide⟩,
    (change_output_correctness Id.xch 9 (AssetGroup.mk [Coin.new 0 1 100] [(2, 60)])
      (by decide)).1 (by decide)⟩

/-- The orchestrator session working set: the configured change puzzle hash,
coins added per asset, actions applied so far, and accumulated CoinSpends. -/
structure Spends where
  changePuzzleHash : Bytes32
  xchCoins : List Coin
  catCoins : List (Bytes32 × Coin)
  pendingActions : List Action
  coinSpends : List CoinSpend
deriving DecidableEq, Repr

/-- Create a fresh session with the given change puzzle hash
(`Spends::new(change_puzzle_hash)`). -/
def Spends.new (changePuzzleHash : Bytes32) : Spends :=
  ⟨changePuzzleHash, [], [], [], []⟩

/-- Add an XCH coin to the working set (`spends.add(coin)`). -/
def Spends.add (st : Spends) (c : Coin) : Spends :=
  { st with xchCoins := st.xchCoins ++ [c] }

/-- Add a CAT coin to the working set (`spends.add_cat(cat)`). -/
def Spends.addCat (st : Spends) (assetId : Bytes32) (c : Coin) : Spends :=
  { st with catCoins := st.catCoins ++ [(assetId, c)] }

/-- Modelled from the spec: `Spends::apply` validates the action list (the
`New` reference resolution walk) and only on success commits the actions to
the session; any failure is reported before the working set is touched. -/
def Spends.apply (st : Spends) (actions : List Action) :
    Spends × Except SpendError (List Nat) :=
  match resolveActions actions with
  | Except.error e => (st, Except.error e)
  | Except.ok reg =>
    ({ st with pendingActions := st.pendingActions ++ actions }, Except.ok reg)

/-- The XCH asset group implied by the session: added XCH coins and the XCH
send outputs of the applied actions. -/
def Spends.xchGroup (st : Spends) : AssetGroup :=
  ⟨st.xchCoins, st.pendingActions.filterMap fun a =>
    match a with
    | Action.send Id.xch dest amt _ => some (dest, amt)
    | _ => none⟩

/-- Modelled from the spec: the finalization step for the native asset; on
failure (insufficient funds) the session is left untouched, on success the
accumulated CoinSpends are extended and the consumed working set drained. -/
def Spends.finishXch (st : Spends) : Spends × Except SpendError (List CoinSpend) :=
  match finishAsset Id.xch st.changePuzzleHash st.xchGroup with
  | Except.error e => (st, Except.error e)
  | Except.ok spends =>
    ({ st with
        xchCoins := []
        pendingActions := []
        coinSpends := st.coinSpends ++ spends },
      Except.ok spends)

/-- C8: every failing `apply` or `finish` call on the orchestrator leaves its
working set (added coins, applied actions, accumulated CoinSpends) unchanged
— strong exception safety with no partial commit — so the caller may correct
the inputs and retry the same session. -/
theorem orchestrator_strong_exception_safety :
    (∀ (st : Spends) (actions : List Action) (e : SpendError),
      (st.apply actions).2 = Except.error e → (st.apply actions).1 = st) ∧
    (∀ (st : Spends) (e : SpendError),
      st.finishXch.2 = Except.error e → st.finishXch.1 = st) := by
  constructor
  · intro st actions e h
    simp only [Spends.apply] at h ⊢
    cases hres : resolveActions actions with
    | error e₂ => simp only [hres]
    | ok reg =>
      rw [hres] at h
      exact absurd h (by simp)
  · intro st e h
    simp only [Spends.finishXch] at h ⊢
    cases hres : finishAsset Id.xch st.changePuzzleHash st.xchGroup with
    | error e₂ => simp only [hres]
    | ok spends =>
      rw [hres] at h
      exact absurd h (by simp)

theorem orchestrator_strong_exception_safety_witness :
    (((Spends.new 7).add (Coin.new 0 7 100)).apply
        [Action.send (Id.new 0) 2 5 []]).2 =
      Except.error (SpendError.unresolvedAssetReference 0) ∧
    (((Spends.new 7).add (Coin.new 0 7 100)).apply
        [Action.send (Id.new 0) 2 5 []]).1 =
      (Spends.new 7).add (Coin.new 0 7 100) :=
  ⟨rfl,
    orchestrator_strong_exception_safety.1 ((Spends.new 7).add (Coin.new 0 7 100))
      [Action.send (Id.new 0) 2 5 []] (SpendError.unresolvedAssetReference 0)
      rfl⟩

/-- An encoding of a running ring subtotal (a signed integer) as an
announcement message. -/
def encodeInt : Int → Nat
  | Int.ofNat n => 2 * n
  | Int.negSucc n => 2 * n + 1

/-- One member of a fungible-asset conservation ring: the CAT coin being
spent and the outputs its inner spend creates. -/
structure CatSpendInput where
  cat : Coin
  outputs : List (Bytes32 × Nat)
deriving DecidableEq, Repr

/-- The member's delta: `amount_in - sum(amounts_out_to_children)`. -/
def CatSpendInput.delta (m : CatSpendInput) : Int :=
  (m.cat.amount : Int) - ((m.outputs.map Prod.snd).sum : Int)

/-- The final running subtotal of a ring. -/
def subtotalAfter (ms : List CatSpendInput) : Int :=
  (ms.map CatSpendInput.delta).sum

/-- The assertion of the previous ring member's announced subtotal (empty for
the first member). -/
def prevAssert (sub : Int) : Option Coin → List Condition
  | some pc => [Condition.assertCoinAnnouncement (coinAnnId pc.coinId (encodeInt sub))]
  | none => []

/-- The announcement of the new subtotal to the next ring member (empty for
the last member, which instead checks the final subtotal). -/
def nextAnnounce (newSub : Int) (rest : List CatSpendInput) : List Condition :=
  if rest.isEmpty then []
  else [Condition.createCoinAnnouncement (encodeInt newSub)]

/-- The spend of one ring member: its outputs, the assertion of the previous
subtotal, and the announcement of the new subtotal. -/
def ringHead (sub : Int) (prev : Option Coin) (m : CatSpendInput)
    (rest : List CatSpendInput) : CoinSpend :=
  ⟨m.cat,
    (m.outputs.map fun p => Condition.createCoin p.1 p.2 [p.1]) ++
      prevAssert sub prev ++ nextAnnounce (sub + m.delta) rest⟩

/-- Modelled from the spec: the spend list emitted by `Cat::spend_all` (SDK
code outside this repository): each member emits its outputs, asserts the
previous member's announced subtotal, and communicates the new subtotal to
the next member via a coin announcement. -/
def ringSpends : Int → Option Coin → List CatSpendInput → List CoinSpend
  | _, _, [] => []
  | sub, prev, m :: rest =>
    ringHead sub prev m rest :: ringSpends (sub + m.delta) (some m.cat) rest

/-- The conservation-ring spend set of a same-asset CAT group, starting from
subtotal zero with no predecessor. -/
def catSpendAll (ms : List CatSpendInput) : List CoinSpend :=
  ringSpends 0 none ms

/-- Modelled from the spec: validity of the conservation ring — the emitted
announcement graph must be satisfied within the spend set, and a non-zero
final subtotal must be authorized by the issuance policy (TAIL); without a
TAIL only a zero net delta is valid. -/
def catRingValid (ms : List CatSpendInput) (tailAuth : Option (Int → Bool)) : Bool :=
  txConditionsOk (catSpendAll ms) &&
    (if subtotalAfter ms = 0 then true
     else
       match tailAuth with
       | some f => f (subtotalAfter ms)
       | none => false)

theorem mem_createdCoinAnnIds {tx : List CoinSpend} {s : CoinSpend} {msg : Nat}
    (hs : s ∈ tx) (hc : Condition.createCoinAnnouncement msg ∈ s.conditions) :
    coinAnnId s.coin.coinId msg ∈ createdCoinAnnIds tx := by
  simp only [createdCoinAnnIds, List.mem_flatMap, List.mem_filterMap]
  exact ⟨s, hs, Condition.createCoinAnnouncement msg, hc, rfl⟩

theorem ringSpends_cons (sub : Int) (prev : Option Coin) (m : CatSpendInput)
    (rest : List CatSpendInput) :
    ringSpends sub prev (m :: rest) =
      ringHead sub prev m rest ::
        ringSpends (sub + m.delta) (some m.cat) rest := rfl

theorem ringSpends_conditions_ok (tx : List CoinSpend) :
    ∀ (ms : List CatSpendInput) (sub : Int) (prev : Option Coin),
      (∀ s ∈ ringSpends sub prev ms, s ∈ tx) →
      (∀ pc, prev = some pc → ms ≠ [] →
        coinAnnId pc.coinId (encodeInt sub) ∈ createdCoinAnnIds tx) →
      ∀ s ∈ ringSpends sub prev ms, s.conditions.all (conditionOk tx) = true := by
  intro ms
  induction ms with
  | nil =>
    intro sub prev _ _ s hs
    exact absurd hs (List.not_mem_nil s)
  | cons m rest ih =>
    intro sub prev hsub hprev s hs
    rw [ringSpends_cons, List.mem_cons] at hs
    rcases hs with rfl | hs
    · simp only [ringHead, List.all_append, Bool.and_eq_true, List.all_eq_true]
      refine ⟨⟨?_, ?_⟩, ?_⟩
      · intro c hc
        obtain ⟨p, _, rfl⟩ := List.mem_map.mp hc
        rfl
      · intro c hc
        cases hp : prev with
        | none =>
          rw [hp, prevAssert] at hc
          exact absurd hc (List.not_mem_nil c)
        | some pc =>
          rw [hp, prevAssert, List.mem_singleton] at hc
          subst hc
          simp only [conditionOk, decide_eq_true_eq]
          exact hprev pc hp (by simp)
      · intro c hc
        rw [nextAnnounce] at hc
        by_cases hre : rest.isEmpty
        · rw [if_pos hre] at hc
          exact absurd hc (List.not_mem_nil c)
        · rw [if_neg hre] at hc
          rw [List.mem_singleton] at hc
          subst hc
          rfl
    · refine ih (sub + m.delta) (some m.cat) ?_ ?_ s hs
      · intro u hu
        refine hsub u ?_
        rw [ringSpends_cons, List.mem_cons]
        exact Or.inr hu
      · intro pc hpc hne
        cases hpc
        have hhead : ringHead sub prev m rest ∈ tx := by
          refine hsub _ ?_
          rw [ringSpends_cons, List.mem_cons]
          exact Or.inl rfl
        refine mem_createdCoinAnnIds hhead ?_
        have hre : ¬rest.isEmpty := by
          cases rest with
          | nil => exact absurd rfl hne
          | cons r rs => simp
        rw [ringHead]
        rw [List.mem_append]
        refine Or.inr ?_
        rw [nextAnnounce, if_neg hre]
        exact List.mem_singleton.mpr rfl

theorem catSpendAll_conditions_ok (ms : List CatSpendInput) :
    txConditionsOk (catSpendAll ms) = true := by
  rw [txConditionsOk, List.all_eq_true]
  intro s hs
  refine ringSpends_conditions_ok (catSpendAll ms) ms 0 none (fun u hu => hu)
    ?_ s hs
  intro pc hpc
  exact Option.noConfusion hpc

theorem filterMap_createCoin (outs : List (Bytes32 × Nat)) :
    (List.filterMap (fun c =>
        match c with
        | Condition.createCoin ph amt _ => some (ph, amt)
        | _ => none)
      (outs.map fun p => Condition.createCoin p.1 p.2 [p.1])) = outs := by
  induction outs with
  | nil => rfl
  | cons p ps ih => simp only [List.map_cons, List.filterMap_cons, ih]

theorem createdOutputs_ringSpends :
    ∀ (ms : List CatSpendInput) (sub : Int) (prev : Option Coin),
      createdOutputs (ringSpends sub prev ms) =
        ms.flatMap fun m => m.outputs := by
  intro ms
  induction ms with
  | nil => intro sub prev; rfl
  | cons m rest ih =>
    intro sub prev
    rw [ringSpends_cons]
    simp only [createdOutputs, List.flatMap_cons] at ih ⊢
    rw [ringHead]
    simp only [List.filterMap_append]
    rw [filterMap_createCoin, ih]
    have hB : (List.filterMap (fun c =>
        match c with
        | Condition.createCoin ph amt _ => some (ph, amt)
        | _ => none) (prevAssert sub prev)) = [] := by
      cases prev <;> rfl
    have hC : (List.filterMap (fun c =>
        match c with
        | Condition.createCoin ph amt _ => some (ph, amt)
        | _ => none) (nextAnnounce (sub + m.delta) rest)) = [] := by
      rw [nextAnnounce]
      by_cases hre : rest.isEmpty
      · rw [if_pos hre]
        rfl
      · rw [if_neg hre]
        rfl
    rw [hB, hC]
    simp

theorem ringSpends_amounts :
    ∀ (ms : List CatSpendInput) (sub : Int) (prev : Option Coin),
      (ringSpends sub prev ms).map (fun s => s.coin.amount) =
        ms.map fun m => m.cat.amount := by
  intro ms
  induction ms with
  | nil => intro sub prev; rfl
  | cons m rest ih =>
    intro sub prev
    rw [ringSpends_cons]
    simp only [List.map_cons, ih]
    rfl

theorem subtotalAfter_eq (ms : List CatSpendInput) :
    subtotalAfter ms =
      (((ms.map fun m => m.cat.amount).sum : Nat) : Int) -
        ((((ms.flatMap fun m => m.outputs).map Prod.snd).sum : Nat) : Int) := by
  induction ms with
  | nil => simp [subtotalAfter]
  | cons m rest ih =>
    simp only [subtotalAfter, List.map_cons, List.sum_cons, List.flatMap_cons,
      List.map_append, List.sum_append] at ih ⊢
    rw [CatSpendInput.delta, ih]
    push_cast
    ring

/-- C1: when the resolved ring deltas are zero-sum, the CoinSpend set emitted
by the conservation ring has declared outputs summing exactly to its declared
inputs; a non-zero net delta is invalid without an issuance policy, and with
a TAIL revealed the ring is valid exactly when the policy authorizes the
non-zero delta. -/
theorem cat_conservation_ring (ms : List CatSpendInput) :
    (subtotalAfter ms = 0 →
      ((createdOutputs (catSpendAll ms)).map Prod.snd).sum =
        ((catSpendAll ms).map fun s => s.coin.amount).sum) ∧
    (subtotalAfter ms ≠ 0 →
      catRingValid ms none = false ∧
      ∀ f : Int → Bool,
        (catRingValid ms (some f) = true ↔ f (subtotalAfter ms) = true)) := by
  constructor
  · intro hzero
    rw [catSpendAll, createdOutputs_ringSpends, ringSpends_amounts]
    have heq := subtotalAfter_eq ms
    rw [hzero] at heq
    omega
  · intro hne
    have hcond := catSpendAll_conditions_ok ms
    constructor
    · simp only [catRingValid, hcond, if_neg hne, Bool.true_and]
    · intro f
      simp only [catRingValid, hcond, if_neg hne, Bool.true_and]

theorem cat_conservation_ring_witness :
    (subtotalAfter [CatSpendInput.mk (Coin.new 0 1 5) [(2, 5)]] = 0 ∧
      ((createdOutputs (catSpendAll [CatSpendInput.mk (Coin.new 0 1 5) [(2, 5)]])).map
          Prod.snd).sum =
        ((catSpendAll [CatSpendInput.mk (Coin.new 0 1 5) [(2, 5)]]).map
          fun s => s.coin.amount).sum) ∧
    (subtotalAfter [CatSpendInput.mk (Coin.new 0 1 5) []] ≠ 0 ∧
      catRingValid [CatSpendInput.mk (Coin.new 0 1 5) []] none = false) :=
  ⟨⟨by decide,
    (cat_conservation_ring [CatSpendInput.mk (Coin.new 0 1 5) [(2, 5)]]).1 (by decide)⟩,
   ⟨by decide,
    ((cat_conservation_ring [CatSpendInput.mk (Coin.new 0 1 5) []]).2 (by decide)).1⟩⟩

/-- An injective encoding of a list of naturals, modelling the canonical
serialization fed to the nonce hash. -/
def encodeNatList : List Nat → Nat
  | [] => 0
  | a :: rest => Nat.pair a (encodeNatList rest) + 1

theorem encodeNatList_inj : ∀ {l₁ l₂ : List Nat},
    encodeNatList l₁ = encodeNatList l₂ → l₁ = l₂ := by
  intro l₁
  induction l₁ with
  | nil =>
    intro l₂ h
    cases l₂ with
    | nil => rfl
    | cons b rest =>
      rw [encodeNatList, encodeNatList] at h
      exact absurd h (by omega)
  | cons a rest ih =>
    intro l₂ h
    cases l₂ with
    | nil =>
      rw [encodeNatList, encodeNatList] at h
      exact absurd h (by omega)
    | cons b rest₂ =>
      rw [encodeNatList, encodeNatList] at h
      have h₂ : Nat.pair a (encodeNatList rest) =
          Nat.pair b (encodeNatList rest₂) := by omega
      obtain ⟨h₃, h₄⟩ := Nat.pair_eq_pair.mp h₂
      rw [h₃, ih h₄]

/-- Modelled from the spec: `Offer::nonce` (SDK code outside this repository)
— computed once per offer as a hash of the sorted offered coin ids. -/
def offerNonce (coinIds : List Bytes32) : Nat :=
  encodeNatList (List.insertionSort (· ≤ ·) coinIds)

/-- A payment requested by the maker: destination puzzle hash, amount, and
memos. -/
structure Payment where
  puzzleHash : Bytes32
  amount : Nat
  memos : List Nat
deriving DecidableEq, Repr

/-- A notarized payment: a requested payment list tagged with the nonce
binding it to one specific offer instance. -/
structure NotarizedPayment where
  nonce : Nat
  payments : List Payment
deriving DecidableEq, Repr

/-- Construct a notarized payment, as in `NotarizedPayment::new(nonce,
payments)`. -/
def NotarizedPayment.new (nonce : Nat) (payments : List Payment) :
    NotarizedPayment :=
  ⟨nonce, payments⟩

/-- The maker's requested payments: every notarized payment is built with the
one nonce of the offer, as in the maker examples. -/
def makerRequestedPayments (offeredCoinIds : List Bytes32)
    (requests : List (List Payment)) : List NotarizedPayment :=
  requests.map fun ps => NotarizedPayment.new (offerNonce offeredCoinIds) ps

/-- Modelled from the spec: the settlement layer accepts a notarized payment
against an offer only when the payment's nonce equals the offer's nonce. -/
def nonceMatches (offeredCoinIds : List Bytes32) (np : NotarizedPayment) : Bool :=
  decide (np.nonce = offerNonce offeredCoinIds)

/-- C6: the notarized-payment nonce is a function of the sorted offered coin
id set alone (any input order yields the same nonce); every notarized payment
the maker requests is tagged with that nonce; and against an offer whose
offered coin id set differs, a maker payment never matches, so the
requested-payment shape cannot be reused against a different offer. -/
theorem offer_nonce_binding :
    (∀ (offeredCoinIds : List Bytes32) (requests : List (List Payment)),
      ∀ np ∈ makerRequestedPayments offeredCoinIds requests,
        np.nonce = offerNonce offeredCoinIds) ∧
    (∀ l₁ l₂ : List Bytes32, List.Perm l₁ l₂ → offerNonce l₁ = offerNonce l₂) ∧
    (∀ (l₁ l₂ : List Bytes32) (requests : List (List Payment)),
      ¬List.Perm l₁ l₂ →
      ∀ np ∈ makerRequestedPayments l₁ requests,
        nonceMatches l₂ np = false) := by
  have hinj : ∀ l₁ l₂ : List Bytes32, offerNonce l₁ = offerNonce l₂ →
      List.Perm l₁ l₂ := by
    intro l₁ l₂ h
    have hsorted := encodeNatList_inj h
    have hp₁ := List.perm_insertionSort (fun a b : Nat => a ≤ b) l₁
    have hp₂ := List.perm_insertionSort (fun a b : Nat => a ≤ b) l₂
    have hp₂b : List.Perm (List.insertionSort (· ≤ ·) l₁) l₂ := by
      rw [hsorted]
      exact hp₂
    exact hp₁.symm.trans hp₂b
  refine ⟨?_, ?_, ?_⟩
  · intro offeredCoinIds requests np hnp
    obtain ⟨ps, _, rfl⟩ := List.mem_map.mp hnp
    rfl
  · intro l₁ l₂ hperm
    have hs₁ := List.sorted_insertionSort (fun a b : Nat => a ≤ b) l₁
    have hs₂ := List.sorted_insertionSort (fun a b : Nat => a ≤ b) l₂
    have hp₁ := List.perm_insertionSort (fun a b : Nat => a ≤ b) l₁
    have hp₂ := List.perm_insertionSort (fun a b : Nat => a ≤ b) l₂
    have heq : List.insertionSort (· ≤ ·) l₁ = List.insertionSort (· ≤ ·) l₂ :=
      List.eq_of_perm_of_sorted ((hp₁.trans hperm).trans hp₂.symm) hs₁ hs₂
    rw [offerNonce, offerNonce, heq]
  · intro l₁ l₂ requests hnperm np hnp
    obtain ⟨ps, _, rfl⟩ := List.mem_map.mp hnp
    rw [nonceMatches]
    rw [decide_eq_false_iff_not]
    intro heq
    exact hnperm (hinj l₁ l₂ heq)

theorem offer_nonce_binding_witness :
    (List.Perm [3, 1] [1, 3] ∧ offerNonce [3, 1] = offerNonce [1, 3]) ∧
    (¬List.Perm [1] [2] ∧
      NotarizedPayment.new (offerNonce [1]) [Payment.mk 7 5 []] ∈
        makerRequestedPayments [1] [[Payment.mk 7 5 []]] ∧
      nonceMatches [2] (NotarizedPayment.new (offerNonce [1])
        [Payment.mk 7 5 []]) = false) :=
  ⟨⟨by decide, offer_nonce_binding.2.1 [3, 1] [1, 3] (by decide)⟩,
   ⟨by decide, by simp [makerRequestedPayments],
    offer_nonce_binding.2.2 [1] [2] [[Payment.mk 7 5 []]] (by decide) _
      (by simp [makerRequestedPayments])⟩⟩

theorem coinId_inj {c₁ c₂ : Coin} (h : c₁.coinId = c₂.coinId) : c₁ = c₂ := by
  obtain ⟨h₁, h₂, h₃⟩ := hashTriple_inj h
  cases c₁
  cases c₂
  simp_all

/-- The hash of a notarized payment, as announced by a settlement spend that
reveals it. -/
def npHash (np : NotarizedPayment) : Nat :=
  hashPair np.nonce (encodeNatList (np.payments.map fun p =>
    hashTriple p.puzzleHash p.amount (encodeNatList p.memos)))

theorem npHash_inj {np₁ np₂ : NotarizedPayment} (h : npHash np₁ = npHash np₂) :
    np₁ = np₂ := by
  obtain ⟨h₁, h₂⟩ := hashPair_inj h
  have h₃ := encodeNatList_inj h₂
  have hinj : Function.Injective (fun p : Payment =>
      hashTriple p.puzzleHash p.amount (encodeNatList p.memos)) := by
    intro p₁ p₂ hp
    obtain ⟨ha, hb, hc⟩ := hashTriple_inj hp
    have hd := encodeNatList_inj hc
    cases p₁
    cases p₂
    simp_all
  have h₄ := List.map_injective_iff.mpr hinj h₃
  cases np₁
  cases np₂
  simp_all

/-- A spend bundle: coin spends plus an aggregated signature (BLS signature
aggregation modelled as addition). -/
structure SpendBundle where
  coinSpends : List CoinSpend
  aggregatedSignature : Nat
deriving DecidableEq, Repr

/-- An offer: the maker's signed locked spends, the payments requested in
return, and the maker's signature. -/
structure Offer where
  lockedSpends : List CoinSpend
  requestedPayments : List NotarizedPayment
  makerSignature : Nat
deriving DecidableEq, Repr

/-- Modelled from the spec: `Offer::take` (SDK code outside this repository)
— the maker's original signed CoinSpend set and the taker's signed CoinSpend
set are concatenated and their signatures aggregated to form one
transaction. -/
def Offer.take (o : Offer) (taker : SpendBundle) : SpendBundle :=
  ⟨o.lockedSpends ++ taker.coinSpends,
    o.makerSignature + taker.aggregatedSignature⟩

/-- The maker's locked spend: it sends the offered value to the settlement
puzzle and asserts the puzzle announcement the CAT settlement spend makes
when it reveals exactly the maker's requested notarized payment. -/
def makerSpend (makerCoin : Coin) (settlementPh catSettlementPh : Bytes32)
    (requested : NotarizedPayment) : CoinSpend :=
  ⟨makerCoin,
    [Condition.createCoin settlementPh makerCoin.amount [],
     Condition.assertPuzzleAnnouncement
       (puzzleAnnId catSettlementPh (npHash requested))]⟩

/-- The offered coin locked at the settlement puzzle hash, created by the
maker's spend. -/
def offeredCoin (makerCoin : Coin) (settlementPh : Bytes32) : Coin :=
  Coin.new makerCoin.coinId settlementPh makerCoin.amount

/-- The taker's own input spend: it routes the taker's CAT into the CAT
settlement puzzle, and asserts the puzzle announcement made by the offered
settlement coin paying the taker. -/
def takerCatSpend (takerCat : Coin) (settlementPh catSettlementPh : Bytes32)
    (takerNp : NotarizedPayment) : CoinSpend :=
  ⟨takerCat,
    [Condition.createCoin catSettlementPh takerCat.amount [],
     Condition.assertPuzzleAnnouncement
       (puzzleAnnId settlementPh (npHash takerNp))]⟩

/-- The taker-funded CAT settlement coin. -/
def catSettlementCoin (takerCat : Coin) (catSettlementPh : Bytes32) : Coin :=
  Coin.new takerCat.coinId catSettlementPh takerCat.amount

/-- The spend of the CAT settlement coin with the notarized payment the taker
actually presents: it creates the payment outputs and announces the hash of
what it was given. -/
def catSettlementSpend (takerCat : Coin) (catSettlementPh : Bytes32)
    (actual : NotarizedPayment) : CoinSpend :=
  ⟨catSettlementCoin takerCat catSettlementPh,
    (actual.payments.map fun p =>
      Condition.createCoin p.puzzleHash p.amount p.memos) ++
      [Condition.createPuzzleAnnouncement (npHash actual)]⟩

/-- The spend of the maker's offered settlement coin with the taker's own
notarized payment: it pays the taker and announces the payment hash. -/
def offeredSettlementSpend (makerCoin : Coin) (settlementPh : Bytes32)
    (takerNp : NotarizedPayment) : CoinSpend :=
  ⟨offeredCoin makerCoin settlementPh,
    (takerNp.payments.map fun p =>
      Condition.createCoin p.puzzleHash p.amount p.memos) ++
      [Condition.createPuzzleAnnouncement (npHash takerNp)]⟩

/-- The maker's offer of XCH for a CAT, as in the offer examples. -/
def xchForCatOffer (makerCoin : Coin) (settlementPh catSettlementPh : Bytes32)
    (requested : NotarizedPayment) (makerSig : Nat) : Offer :=
  ⟨[makerSpend makerCoin settlementPh catSettlementPh requested],
    [requested], makerSig⟩

/-- The taker's fulfillment bundle: their own CAT spend, the CAT settlement
spend revealing the payment they actually make, and the claim of the offered
settlement coin. -/
def takerFulfillment (makerCoin takerCat : Coin)
    (settlementPh catSettlementPh : Bytes32) (actual takerNp : NotarizedPayment)
    (takerSig : Nat) : SpendBundle :=
  ⟨[takerCatSpend takerCat settlementPh catSettlementPh takerNp,
    catSettlementSpend takerCat catSettlementPh actual,
    offeredSettlementSpend makerCoin settlementPh takerNp], takerSig⟩

/-- The combined transaction formed by taking the offer. -/
def offerBatch (makerCoin takerCat : Coin)
    (settlementPh catSettlementPh : Bytes32)
    (requested actual takerNp : NotarizedPayment)
    (makerSig takerSig : Nat) : SpendBundle :=
  (xchForCatOffer makerCoin settlementPh catSettlementPh requested makerSig).take
    (takerFulfillment makerCoin takerCat settlementPh catSettlementPh actual
      takerNp takerSig)

theorem offerBatch_spends_eq (makerCoin takerCat : Coin)
    (settlementPh catSettlementPh : Bytes32)
    (requested actual takerNp : NotarizedPayment) (makerSig takerSig : Nat) :
    (offerBatch makerCoin takerCat settlementPh catSettlementPh requested
        actual takerNp makerSig takerSig).coinSpends =
      [makerSpend makerCoin settlementPh catSettlementPh requested,
       takerCatSpend takerCat settlementPh catSettlementPh takerNp,
       catSettlementSpend takerCat catSettlementPh actual,
       offeredSettlementSpend makerCoin settlementPh takerNp] := rfl

theorem batch_puzzle_ann_shape (makerCoin takerCat : Coin)
    (settlementPh catSettlementPh : Bytes32)
    (requested actual takerNp : NotarizedPayment) (makerSig takerSig : Nat)
    {tx : List CoinSpend} {i : Bytes32}
    (hsub : tx ⊆ (offerBatch makerCoin takerCat settlementPh catSettlementPh
      requested actual takerNp makerSig takerSig).coinSpends)
    (hmem : i ∈ createdPuzzleAnnIds tx) :
    (i = puzzleAnnId catSettlementPh (npHash actual) ∧
      catSettlementSpend takerCat catSettlementPh actual ∈ tx) ∨
    (i = puzzleAnnId settlementPh (npHash takerNp) ∧
      offeredSettlementSpend makerCoin settlementPh takerNp ∈ tx) := by
  simp only [createdPuzzleAnnIds, List.mem_flatMap, List.mem_filterMap] at hmem
  obtain ⟨s, hstx, c, hc, hmatch⟩ := hmem
  have hsb := hsub hstx
  rw [offerBatch_spends_eq] at hsb
  simp only [List.mem_cons, List.not_mem_nil, or_false] at hsb
  rcases hsb with rfl | rfl | rfl | rfl
  · simp only [makerSpend, List.mem_cons, List.not_mem_nil, or_false] at hc
    rcases hc with rfl | rfl <;> exact absurd hmatch (by simp)
  · simp only [takerCatSpend, List.mem_cons, List.not_mem_nil, or_false] at hc
    rcases hc with rfl | rfl <;> exact absurd hmatch (by simp)
  · simp only [catSettlementSpend, List.mem_append] at hc
    rcases hc with hc | hc
    · obtain ⟨p, _, rfl⟩ := List.mem_map.mp hc
      exact absurd hmatch (by simp)
    · rw [List.mem_singleton] at hc
      subst hc
      rw [Option.some.injEq] at hmatch
      exact Or.inl ⟨hmatch.symm, hstx⟩
  · simp only [offeredSettlementSpend, List.mem_append] at hc
    rcases hc with hc | hc
    · obtain ⟨p, _, rfl⟩ := List.mem_map.mp hc
      exact absurd hmatch (by simp)
    · rw [List.mem_singleton] at hc
      subst hc
      rw [Option.some.injEq] at hmatch
      exact Or.inr ⟨hmatch.symm, hstx⟩

theorem txValid_false_of_bad_condition {pre : List Coin} {tx : List CoinSpend}
    {s : CoinSpend} {c : Condition} (hs : s ∈ tx) (hc : c ∈ s.conditions)
    (hbad : conditionOk tx c = false) : txValid pre tx = false := by
  have hfail : txConditionsOk tx = false := by
    cases h : txConditionsOk tx
    · rfl
    · exfalso
      simp only [txConditionsOk, List.all_eq_true] at h
      have h₂ := h s hs c hc
      rw [hbad] at h₂
      exact absurd h₂ (by simp)
  simp [txValid, hfail]

theorem txValid_false_of_missing_coin {pre : List Coin} {tx : List CoinSpend}
    {s : CoinSpend} (hs : s ∈ tx) (hpre : s.coin ∉ pre)
    (hnc : coinCreatedBy tx s.coin = false) : txValid pre tx = false := by
  have hfail : coinsExist pre tx = false := by
    cases h : coinsExist pre tx
    · rfl
    · exfalso
      simp only [coinsExist, List.all_eq_true] at h
      have h₂ := h s hs
      rw [hnc] at h₂
      simp only [Bool.or_false, decide_eq_true_eq] at h₂
      exact hpre h₂
  simp [txValid, hfail]

/-- C4: taking an offer concatenates the maker's and the taker's signed
CoinSpend sets and adds their aggregated signatures; and for a non-matching
taker fulfillment (a notarized payment differing in amount or destination
from the maker's request), every nonempty sub-batch of the combined
transaction fails validation — the combination fails as a unit and no subset
of CoinSpends from either side is independently accepted. -/
theorem settlement_atomicity (makerCoin takerCat : Coin)
    (settlementPh catSettlementPh : Bytes32)
    (requested actual takerNp : NotarizedPayment) (makerSig takerSig : Nat)
    (pre : List Coin) (tx : List CoinSpend) (t : CoinSpend)
    (hmismatch : actual ≠ requested)
    (hph₁ : catSettlementPh ≠ settlementPh)
    (hph₂ : makerCoin.puzzleHash ≠ settlementPh)
    (hph₃ : takerCat.puzzleHash ≠ settlementPh)
    (hph₄ : makerCoin.puzzleHash ≠ catSettlementPh)
    (hph₅ : takerCat.puzzleHash ≠ catSettlementPh)
    (htc : takerCat ≠ makerCoin)
    (hpre₁ : offeredCoin makerCoin settlementPh ∉ pre)
    (hpre₂ : catSettlementCoin takerCat catSettlementPh ∉ pre) :
    (offerBatch makerCoin takerCat settlementPh catSettlementPh requested
        actual takerNp makerSig takerSig).coinSpends =
      (xchForCatOffer makerCoin settlementPh catSettlementPh requested
        makerSig).lockedSpends ++
      (takerFulfillment makerCoin takerCat settlementPh catSettlementPh actual
        takerNp takerSig).coinSpends ∧
    (offerBatch makerCoin takerCat settlementPh catSettlementPh requested
        actual takerNp makerSig takerSig).aggregatedSignature =
      makerSig + takerSig ∧
    (tx ⊆ (offerBatch makerCoin takerCat settlementPh catSettlementPh requested
        actual takerNp makerSig takerSig).coinSpends →
      t ∈ tx → txValid pre tx = false) := by
  refine ⟨rfl, rfl, ?_⟩
  intro hsub ht
  have hne : npHash actual ≠ npHash requested := fun h => hmismatch (npHash_inj h)
  have hmaker : makerSpend makerCoin settlementPh catSettlementPh requested ∈ tx →
      txValid pre tx = false := by
    intro hm
    refine txValid_false_of_bad_condition hm (c := Condition.assertPuzzleAnnouncement
      (puzzleAnnId catSettlementPh (npHash requested))) (by simp [makerSpend]) ?_
    simp only [conditionOk]
    rw [decide_eq_false_iff_not]
    intro hmem
    rcases batch_puzzle_ann_shape makerCoin takerCat settlementPh catSettlementPh
        requested actual takerNp makerSig takerSig hsub hmem with
      ⟨heq, _⟩ | ⟨heq, _⟩
    · exact hne (hashPair_inj heq).2.symm
    · exact hph₁ (hashPair_inj heq).1
  have hoffered : offeredSettlementSpend makerCoin settlementPh takerNp ∈ tx →
      txValid pre tx = false := by
    intro ho
    by_cases hm : makerSpend makerCoin settlementPh catSettlementPh requested ∈ tx
    · exact hmaker hm
    · refine txValid_false_of_missing_coin ho hpre₁ ?_
      cases hcb : coinCreatedBy tx (offeredSettlementSpend makerCoin settlementPh
          takerNp).coin
      · rfl
      · exfalso
        simp only [coinCreatedBy, List.any_eq_true] at hcb
        obtain ⟨u, hutx, hu⟩ := hcb
        rw [Bool.and_eq_true] at hu
        obtain ⟨hid, _⟩ := hu
        rw [decide_eq_true_eq] at hid
        have hucoin : u.coin = makerCoin := coinId_inj hid
        have hub := hsub hutx
        rw [offerBatch_spends_eq] at hub
        simp only [List.mem_cons, List.not_mem_nil, or_false] at hub
        rcases hub with rfl | rfl | rfl | rfl
        · exact hm hutx
        · exact htc hucoin
        · exact hph₄ (congrArg Coin.puzzleHash hucoin).symm
        · exact hph₂ (congrArg Coin.puzzleHash hucoin).symm
  have htaker : takerCatSpend takerCat settlementPh catSettlementPh takerNp ∈ tx →
      txValid pre tx = false := by
    intro htk
    by_cases ho : offeredSettlementSpend makerCoin settlementPh takerNp ∈ tx
    · exact hoffered ho
    · refine txValid_false_of_bad_condition htk
        (c := Condition.assertPuzzleAnnouncement
          (puzzleAnnId settlementPh (npHash takerNp)))
        (by simp [takerCatSpend]) ?_
      simp only [conditionOk]
      rw [decide_eq_false_iff_not]
      intro hmem
      rcases batch_puzzle_ann_shape makerCoin takerCat settlementPh catSettlementPh
          requested actual takerNp makerSig takerSig hsub hmem with
        ⟨heq, _⟩ | ⟨_, hmem₂⟩
      · exact hph₁ (hashPair_inj heq).1.symm
      · exact ho hmem₂
  have hcat : catSettlementSpend takerCat catSettlementPh actual ∈ tx →
      txValid pre tx = false := by
    intro hcs
    by_cases htk : takerCatSpend takerCat settlementPh catSettlementPh takerNp ∈ tx
    · exact htaker htk
    · refine txValid_false_of_missing_coin hcs hpre₂ ?_
      cases hcb : coinCreatedBy tx (catSettlementSpend takerCat catSettlementPh
          actual).coin
      · rfl
      · exfalso
        simp only [coinCreatedBy, List.any_eq_true] at hcb
        obtain ⟨u, hutx, hu⟩ := hcb
        rw [Bool.and_eq_true] at hu
        obtain ⟨hid, _⟩ := hu
        rw [decide_eq_true_eq] at hid
        have hucoin : u.coin = takerCat := coinId_inj hid
        have hub := hsub hutx
        rw [offerBatch_spends_eq] at hub
        simp only [List.mem_cons, List.not_mem_nil, or_false] at hub
        rcases hub with rfl | rfl | rfl | rfl
        · exact htc hucoin.symm
        · exact htk hutx
        · exact hph₅ (congrArg Coin.puzzleHash hucoin).symm
        · exact hph₃ (congrArg Coin.puzzleHash hucoin).symm
  have htb := hsub ht
  rw [offerBatch_spends_eq] at htb
  simp only [List.mem_cons, List.not_mem_nil, or_false] at htb
  rcases htb with rfl | rfl | rfl | rfl
  · exact hmaker ht
  · exact htaker ht
  · exact hcat ht
  · exact hoffered ht

theorem settlement_atomicity_witness :
    NotarizedPayment.new 5 [Payment.mk 30 49 []] ≠
      NotarizedPayment.new 5 [Payment.mk 30 50 []] ∧
    txValid [Coin.new 0 10 100, Coin.new 1 11 50]
      (offerBatch (Coin.new 0 10 100) (Coin.new 1 11 50) 20 21
        (NotarizedPayment.new 5 [Payment.mk 30 50 []])
        (NotarizedPayment.new 5 [Payment.mk 30 49 []])
        (NotarizedPayment.new 5 [Payment.mk 31 100 []]) 1 2).coinSpends = false :=
  ⟨by decide,
    (settlement_atomicity (Coin.new 0 10 100) (Coin.new 1 11 50) 20 21
      (NotarizedPayment.new 5 [Payment.mk 30 50 []])
      (NotarizedPayment.new 5 [Payment.mk 30 49 []])
      (NotarizedPayment.new 5 [Payment.mk 31 100 []]) 1 2
      [Coin.new 0 10 100, Coin.new 1 11 50]
      (offerBatch (Coin.new 0 10 100) (Coin.new 1 11 50) 20 21
        (NotarizedPayment.new 5 [Payment.mk 30 50 []])
        (NotarizedPayment.new 5 [Payment.mk 30 49 []])
        (NotarizedPayment.new 5 [Payment.mk 31 100 []]) 1 2).coinSpends
      (makerSpend (Coin.new 0 10 100) 20 21
        (NotarizedPayment.new 5 [Payment.mk 30 50 []]))
      (by decide) (by decide) (by decide) (by decide) (by decide) (by decide)
      (by decide) (by decide) (by decide)).2.2 (fun a ha => ha)
      (by rw [offerBatch_spends_eq]; exact List.mem_cons_self _ _)⟩

end Spec2Proof
